import Mathlib

/-!
Shallow embedding of `src/deque.rs`: a bounded two-lock FIFO queue
(`InnerQueue<T>`) with fixed-capacity ring storage, a write cursor stored
inside the producer mutex (`enq_lock`), a read cursor stored inside the
consumer mutex (`deq_lock`), and an atomic occupancy counter (`size`).
The claims under verification quantify over single-threaded executions,
so each `enq`/`deq` is modelled as one atomic transition on the state;
the mutexes reduce to their cursor contents.  The cursors are `isize` in
the source but start at 0 and are only ever incremented and reduced
modulo `capacity`, so they stay non-negative and are modelled as `Nat`.
-/

namespace Hopper

/-- Error kind returned by `enq` (`Error::WouldBlock` in the source; the
spec names this error kind `Full`). -/
inductive Error where
  | WouldBlock
deriving DecidableEq

/-- State of `InnerQueue<T>`: `data` is the ring storage (the buffer behind
`*mut Option<T>`, of length `capacity`), `size` is the occupancy counter,
`enq_lock` and `deq_lock` are the integers stored inside the producer and
consumer mutexes — the write and read cursors. -/
structure InnerQueue (T : Type) where
  capacity : Nat
  data : List (Option T)
  size : Nat
  enq_lock : Nat
  deq_lock : Nat
deriving DecidableEq

/-- Read the slot at ring index `i` (the dereference of `self.data.offset(i)`;
an out-of-range index — impossible in reachable states of positive capacity —
defaults to an empty slot). -/
def InnerQueue.slotAt {T : Type} (q : InnerQueue T) (i : Nat) : Option T :=
  q.data.getD i none

/-- The constructor `InnerQueue::with_capacity`: `capacity` slots, all `None`,
both cursors 0, occupancy 0. -/
def InnerQueue.withCapacity (T : Type) (capacity : Nat) : InnerQueue T :=
  { capacity := capacity
    data := List.replicate capacity none
    size := 0
    enq_lock := 0
    deq_lock := 0 }

/-- The constructor `InnerQueue::new`: default capacity 1024. -/
def InnerQueue.mkNew (T : Type) : InnerQueue T :=
  InnerQueue.withCapacity T 1024

instance {ε α : Type} [DecidableEq ε] [DecidableEq α] : DecidableEq (Except ε α)
  | .ok a, .ok b =>
      if h : a = b then .isTrue (by rw [h]) else .isFalse (by simp [h])
  | .ok _, .error _ => .isFalse (by simp)
  | .error _, .ok _ => .isFalse (by simp)
  | .error a, .error b =>
      if h : a = b then .isTrue (by rw [h]) else .isFalse (by simp [h])

/-- Outcome of one `enq` call: the queue state on return, the returned
`Result<(), Error>`, and whether the `must_wake_dequeuers` flag was set
(i.e. whether `not_empty.notify_all()` was executed). -/
structure EnqResult (T : Type) where
  state : InnerQueue T
  result : Except Error Unit
  mustWakeDequeuers : Bool
deriving DecidableEq

/-- Model of `InnerQueue::enq`: inspect the slot at the write cursor; if occupied,
return `Err(WouldBlock)` with nothing modified; otherwise store the element,
advance the write cursor modulo capacity, increment the occupancy counter,
and set `must_wake_dequeuers` exactly when the counter's value before the
increment was 0. -/
def InnerQueue.enq {T : Type} (q : InnerQueue T) (elem : T) : EnqResult T :=
  if (q.slotAt q.enq_lock).isSome then
    { state := q, result := .error .WouldBlock, mustWakeDequeuers := false }
  else
    { state :=
        { q with
          data := q.data.set q.enq_lock (some elem)
          enq_lock := (q.enq_lock + 1) % q.capacity
          size := q.size + 1 }
      result := .ok ()
      mustWakeDequeuers := q.size == 0 }

/-- Outcome of one `deq` call in a single-threaded execution: `blocks` when
the wait loop suspends on occupancy 0 (no producer can wake it), `panics`
for the `unreachable!()` branch (empty slot at the read cursor), `returns`
with the removed element and the state on return. -/
inductive DeqResult (T : Type) where
  | blocks
  | panics
  | returns (elem : T) (state : InnerQueue T)
deriving DecidableEq

/-- Model of `InnerQueue::deq`: wait while the occupancy counter is 0 (single-threaded
this blocks forever); then take the slot at the read cursor — `unreachable!()`
if it is empty — reset it to `None`, advance the read cursor modulo capacity,
and decrement the occupancy counter. -/
def InnerQueue.deq {T : Type} (q : InnerQueue T) : DeqResult T :=
  if q.size = 0 then
    .blocks
  else
    match q.slotAt q.deq_lock with
    | some elem =>
        .returns elem
          { q with
            data := q.data.set q.deq_lock none
            deq_lock := (q.deq_lock + 1) % q.capacity
            size := q.size - 1 }
    | none => .panics

/-- One atomic operation issued on the queue: either an `enq` (which leaves
the state unchanged when it fails) or a completed `deq`. -/
inductive Step {T : Type} : InnerQueue T → InnerQueue T → Prop where
  | enq (q : InnerQueue T) (v : T) : Step q (q.enq v).state
  | deq (q : InnerQueue T) (e : T) (q' : InnerQueue T) :
      q.deq = .returns e q' → Step q q'

/-- States reachable from a freshly constructed queue of capacity `n` by any
sequence of enqueue and dequeue operations. -/
inductive Reachable (T : Type) (n : Nat) : InnerQueue T → Prop where
  | init : Reachable T n (InnerQueue.withCapacity T n)
  | step {q q' : InnerQueue T} : Reachable T n q → Step q q' → Reachable T n q'

/-- An action of the single-threaded driver. -/
inductive Action (T : Type) where
  | enq (v : T)
  | deq
deriving DecidableEq

/-- Observation produced by one action. -/
inductive Obs (T : Type) where
  | enqOk
  | enqFull
  | deqVal (v : T)
  | deqBlocked
  | deqPanicked
deriving DecidableEq

/-- Run a list of actions on the queue, recording one observation per action
(a blocked or panicking dequeue ends the run). -/
def trace {T : Type} : InnerQueue T → List (Action T) → List (Obs T)
  | _, [] => []
  | q, .enq v :: rest =>
      match (q.enq v).result with
      | .ok _ => .enqOk :: trace (q.enq v).state rest
      | .error _ => .enqFull :: trace (q.enq v).state rest
  | q, .deq :: rest =>
      match q.deq with
      | .returns e q' => .deqVal e :: trace q' rest
      | .blocks => [.deqBlocked]
      | .panics => [.deqPanicked]

/-- Run a list of actions on the queue; first component is the sequence of
dequeued values, second the final state. -/
def runQueue {T : Type} : InnerQueue T → List (Action T) → List T × InnerQueue T
  | q, [] => ([], q)
  | q, .enq v :: rest => runQueue (q.enq v).state rest
  | q, .deq :: rest =>
      match q.deq with
      | .returns e q' =>
          let r := runQueue q' rest
          (e :: r.1, r.2)
      | _ => ([], q)

/-- Validity of an action sequence against the queue, as in the claim: an
enqueue is issued only when it succeeds, a dequeue only when the queue is
non-empty (and then it must complete). -/
def queueValid {T : Type} : InnerQueue T → List (Action T) → Bool
  | _, [] => true
  | q, .enq v :: rest =>
      match (q.enq v).result with
      | .ok _ => queueValid (q.enq v).state rest
      | .error _ => false
  | q, .deq :: rest =>
      decide (q.size ≠ 0) &&
      match q.deq with
      | .returns _ q' => queueValid q' rest
      | _ => false

/-- Modelled from the spec: the reference FIFO list, where enqueue is
push-back and dequeue is pop-front; first component of the result is the
sequence of popped values, second the final list. -/
def modelRun {T : Type} : List T → List (Action T) → List T × List T
  | l, [] => ([], l)
  | l, .enq v :: rest => modelRun (l ++ [v]) rest
  | l, .deq :: rest =>
      match l with
      | [] => ([], l)
      | x :: xs =>
          let r := modelRun xs rest
          (x :: r.1, r.2)

/-- Enqueue a whole list of values; second component is whether every single
enqueue succeeded. -/
def enqAll {T : Type} : InnerQueue T → List T → InnerQueue T × Bool
  | q, [] => (q, true)
  | q, v :: vs =>
      let r := enqAll (q.enq v).state vs
      match (q.enq v).result with
      | .ok _ => (r.1, r.2)
      | .error _ => (r.1, false)

/-- Abstraction to the reference FIFO list: the occupied slots read in ring
order starting at the read cursor. -/
def InnerQueue.abs {T : Type} (q : InnerQueue T) : List T :=
  (List.range q.size).filterMap fun i => q.slotAt ((q.deq_lock + i) % q.capacity)

/-- A handle (`Queue<T>` in the source): just the raw pointer to the shared
`InnerQueue`, modelled as an index into a heap of instances. -/
structure Queue where
  inner : Nat
deriving DecidableEq

/-- Model of `Clone for Queue<T>`: copy the pointer, nothing else. -/
def Queue.clone (h : Queue) : Queue :=
  { inner := h.inner }

/-- The heap of queue instances; a handle's `inner` pointer indexes it. -/
structure Heap (T : Type) where
  instances : List (InnerQueue T)
deriving DecidableEq

/-- Model of `Queue::with_capacity`: box a fresh `InnerQueue` and hand out a pointer
to it. -/
def Queue.withCapacity {T : Type} (hp : Heap T) (capacity : Nat) : Heap T × Queue :=
  ({ instances := hp.instances ++ [InnerQueue.withCapacity T capacity] },
   { inner := hp.instances.length })

/-- Model of `Queue::enq`: dereference the pointer and run `InnerQueue::enq` on the
shared instance (a dangling pointer is undefined behaviour in the source;
the model returns the heap unchanged in that impossible case). -/
def Queue.enq {T : Type} (hp : Heap T) (h : Queue) (elem : T) :
    Heap T × Except Error Unit :=
  match hp.instances[h.inner]? with
  | some q =>
      let r := InnerQueue.enq q elem
      ({ instances := hp.instances.set h.inner r.state }, r.result)
  | none => (hp, .error .WouldBlock)

/-- Model of `Queue::deq`: dereference the pointer and run `InnerQueue::deq` on the
shared instance. -/
def Queue.deq {T : Type} (hp : Heap T) (h : Queue) : Heap T × DeqResult T :=
  match hp.instances[h.inner]? with
  | some q =>
      match InnerQueue.deq q with
      | .returns elem q' =>
          ({ instances := hp.instances.set h.inner q' }, .returns elem q')
      | r => (hp, r)
  | none => (hp, .blocks)

/-- Dropping a handle: `Queue<T>` holds only a raw pointer and implements no
`Drop`, so dropping a handle deallocates nothing and leaves every instance
alive. -/
def Queue.dropHandle {T : Type} (hp : Heap T) (_ : Queue) : Heap T :=
  hp

/-- The invariant tying the ring storage, the cursors and the occupancy
counter together in every reachable state of a capacity-`n` queue. -/
structure Inv {T : Type} (n : Nat) (q : InnerQueue T) : Prop where
  cap : q.capacity = n
  len : q.data.length = n
  wcur : q.enq_lock < n
  rcur : q.deq_lock < n
  size_le : q.size ≤ n
  wpos : q.enq_lock = (q.deq_lock + q.size) % n
  occ : ∀ i, i < n → ((q.slotAt ((q.deq_lock + i) % n)).isSome ↔ i < q.size)
  cnt : q.data.countP Option.isSome = q.size

theorem getD_irrel {α : Type} {l : List α} {i : Nat} (h : i < l.length) (d d2 : α) :
    l.getD i d = l.getD i d2 := by
  simp [List.getD_eq_getElem?_getD, List.getElem?_eq_getElem h]

theorem getD_set_self {α : Type} {l : List α} {i : Nat} (a d : α) (h : i < l.length) :
    (l.set i a).getD i d = a := by
  simp [List.getD_eq_getElem?_getD, List.getElem?_set_self, h]

theorem getD_set_ne {α : Type} {l : List α} {i j : Nat} (a d : α) (h : i ≠ j) :
    (l.set i a).getD j d = l.getD j d := by
  simp [List.getD_eq_getElem?_getD, List.getElem?_set_ne h]

theorem getD_replicate_none {T : Type} (n i : Nat) :
    (List.replicate n (none : Option T)).getD i none = none := by
  simp only [List.getD_eq_getElem?_getD, List.getElem?_replicate]
  split <;> rfl

theorem addModCancel {n r i j : Nat} (hi : i < n) (hj : j < n)
    (h : (r + i) % n = (r + j) % n) : i = j := by
  have h2 := Nat.ModEq.add_left_cancel' r (show Nat.ModEq n (r + i) (r + j) from h)
  unfold Nat.ModEq at h2
  rwa [Nat.mod_eq_of_lt hi, Nat.mod_eq_of_lt hj] at h2

theorem countP_set_acc {α : Type} (p : α → Bool) (l : List α) :
    ∀ (i : Nat) (a : α), i < l.length →
      (l.set i a).countP p + (if p (l.getD i a) then 1 else 0)
        = l.countP p + (if p a then 1 else 0) := by
  induction l with
  | nil => intro i a h; simp at h
  | cons x xs ih =>
      intro i a h
      cases i with
      | zero =>
          simp only [List.set_cons_zero, List.countP_cons, List.getD_cons_zero]
          omega
      | succ i =>
          have hih := ih i a (by simpa using h)
          simp only [List.set_cons_succ, List.countP_cons, List.getD_cons_succ]
          omega

/-- The invariant holds in the initial state. -/
theorem inv_init {T : Type} {n : Nat} (hn : 1 ≤ n) :
    Inv n (InnerQueue.withCapacity T n) where
  cap := rfl
  len := List.length_replicate n none
  wcur := hn
  rcur := hn
  size_le := Nat.zero_le n
  wpos := by simp [InnerQueue.withCapacity]
  occ := by
    intro i _
    simp [InnerQueue.withCapacity, InnerQueue.slotAt, getD_replicate_none]
  cnt := by
    simp only [InnerQueue.withCapacity]
    rw [List.countP_eq_zero]
    intro a ha
    rw [(List.mem_replicate.mp ha).2]
    simp

/-- The slot at the write cursor is occupied exactly when the queue is full. -/
theorem slot_wcursor {T : Type} {n : Nat} {q : InnerQueue T}
    (hn : 1 ≤ n) (hq : Inv n q) :
    (q.slotAt q.enq_lock).isSome ↔ q.size = n := by
  by_cases hlt : q.size < n
  · have h1 := hq.occ q.size hlt
    rw [hq.wpos, h1]
    omega
  · have heq : q.size = n := by have := hq.size_le; omega
    have e2 : q.enq_lock = q.deq_lock := by
      rw [hq.wpos, heq, Nat.add_mod_right, Nat.mod_eq_of_lt hq.rcur]
    have h0 := hq.occ 0 (by omega)
    rw [Nat.add_zero, Nat.mod_eq_of_lt hq.rcur] at h0
    rw [e2, h0]
    omega

/-- The slot at the read cursor is occupied exactly when the queue is
non-empty. -/
theorem slot_rcursor {T : Type} {n : Nat} {q : InnerQueue T}
    (hn : 1 ≤ n) (hq : Inv n q) :
    (q.slotAt q.deq_lock).isSome ↔ 0 < q.size := by
  have h0 := hq.occ 0 (by omega)
  rwa [Nat.add_zero, Nat.mod_eq_of_lt hq.rcur] at h0

/-- A full queue rejects the enqueue and is left completely untouched. -/
theorem enq_full_spec {T : Type} {n : Nat} {q : InnerQueue T}
    (hn : 1 ≤ n) (hq : Inv n q) (v : T) (hfull : q.size = n) :
    q.enq v = { state := q, result := .error .WouldBlock, mustWakeDequeuers := false } := by
  have hs : (q.slotAt q.enq_lock).isSome := (slot_wcursor hn hq).mpr hfull
  simp [InnerQueue.enq, hs]

/-- A non-full queue accepts the enqueue: the exact state on return, the
preserved invariant, and the push-back effect on the FIFO abstraction. -/
theorem enq_succ_spec {T : Type} {n : Nat} {q : InnerQueue T}
    (hn : 1 ≤ n) (hq : Inv n q) (v : T) (hlt : q.size < n) :
    q.slotAt q.enq_lock = none
    ∧ q.enq v =
        { state :=
            { q with
              data := q.data.set q.enq_lock (some v)
              enq_lock := (q.enq_lock + 1) % n
              size := q.size + 1 }
          result := .ok ()
          mustWakeDequeuers := q.size == 0 }
    ∧ Inv n (q.enq v).state
    ∧ (q.enq v).state.abs = q.abs ++ [v] := by
  have hwlen : q.enq_lock < q.data.length := by rw [hq.len]; exact hq.wcur
  have hnone : q.slotAt q.enq_lock = none := by
    rcases h : q.slotAt q.enq_lock with _ | a
    · rfl
    · exfalso
      have hw := (slot_wcursor hn hq).mp (by rw [h]; rfl)
      omega
  have henq : q.enq v =
      { state :=
          { q with
            data := q.data.set q.enq_lock (some v)
            enq_lock := (q.enq_lock + 1) % n
            size := q.size + 1 }
        result := .ok ()
        mustWakeDequeuers := q.size == 0 } := by
    simp [InnerQueue.enq, hnone, hq.cap]
  have hinj : ∀ i, i < n → i ≠ q.size → (q.deq_lock + i) % n ≠ q.enq_lock := by
    intro i hi hne heq2
    exact hne (addModCancel hi hlt (heq2.trans hq.wpos))
  have hocc1 : ∀ i, i < n →
      (((q.data.set q.enq_lock (some v)).getD ((q.deq_lock + i) % n) none).isSome
        ↔ i < q.size + 1) := by
    intro i hi
    by_cases his : i = q.size
    · subst his
      rw [← hq.wpos, getD_set_self _ _ hwlen]
      simp
    · rw [getD_set_ne _ _ (Ne.symm (hinj i hi his))]
      have hocc := hq.occ i hi
      simp only [InnerQueue.slotAt] at hocc
      rw [hocc]
      omega
  have hcnt1 : (q.data.set q.enq_lock (some v)).countP Option.isSome = q.size + 1 := by
    have h1 := countP_set_acc Option.isSome q.data q.enq_lock (some v) hwlen
    have h2 : q.data.getD q.enq_lock (some v) = none := by
      rw [getD_irrel hwlen (some v) none]; exact hnone
    rw [h2, hq.cnt] at h1
    simp at h1
    omega
  have hinv : Inv n
      { q with
        data := q.data.set q.enq_lock (some v)
        enq_lock := (q.enq_lock + 1) % n
        size := q.size + 1 } := by
    refine ⟨hq.cap, ?_, ?_, hq.rcur, (show q.size + 1 ≤ n by omega), ?_, ?_, hcnt1⟩
    · rw [List.length_set]; exact hq.len
    · exact Nat.mod_lt _ (by omega)
    · rw [hq.wpos, Nat.mod_add_mod, Nat.add_assoc]
    · intro i hi
      simpa [InnerQueue.slotAt] using hocc1 i hi
  have habs :
      (InnerQueue.abs
        { q with
          data := q.data.set q.enq_lock (some v)
          enq_lock := (q.enq_lock + 1) % n
          size := q.size + 1 }) = q.abs ++ [v] := by
    simp only [InnerQueue.abs, InnerQueue.slotAt, hq.cap]
    rw [List.range_succ, List.filterMap_append]
    have hlast : (q.data.set q.enq_lock (some v)).getD
        ((q.deq_lock + q.size) % n) none = some v := by
      rw [← hq.wpos, getD_set_self _ _ hwlen]
    congr 1
    · exact List.filterMap_congr (fun i hi => by
        have hilt : i < q.size := List.mem_range.mp hi
        rw [getD_set_ne _ _ (Ne.symm (hinj i (by omega) (by omega)))])
    · simp only [List.filterMap_cons, List.filterMap_nil, hlast]
  refine ⟨hnone, henq, ?_, ?_⟩
  · rw [henq]; exact hinv
  · rw [henq]; exact habs

/-- A non-empty queue completes the dequeue: the returned element is the one
stored at the read cursor, the exact state on return, the preserved
invariant, and the pop-front effect on the FIFO abstraction. -/
theorem deq_spec {T : Type} {n : Nat} {q : InnerQueue T}
    (hn : 1 ≤ n) (hq : Inv n q) (hs : q.size ≠ 0) :
    ∃ e, q.slotAt q.deq_lock = some e
    ∧ q.deq = .returns e
        { q with
          data := q.data.set q.deq_lock none
          deq_lock := (q.deq_lock + 1) % n
          size := q.size - 1 }
    ∧ Inv n
        { q with
          data := q.data.set q.deq_lock none
          deq_lock := (q.deq_lock + 1) % n
          size := q.size - 1 }
    ∧ q.abs = e ::
        (InnerQueue.abs
          { q with
            data := q.data.set q.deq_lock none
            deq_lock := (q.deq_lock + 1) % n
            size := q.size - 1 }) := by
  have hrlen : q.deq_lock < q.data.length := by rw [hq.len]; exact hq.rcur
  have hsome : (q.slotAt q.deq_lock).isSome :=
    (slot_rcursor hn hq).mpr (by omega)
  obtain ⟨e, he⟩ := Option.isSome_iff_exists.mp hsome
  obtain ⟨m, hm⟩ : ∃ m, q.size = m + 1 := ⟨q.size - 1, by omega⟩
  have hd0 : (q.deq_lock + 0) % n = q.deq_lock := by
    rw [Nat.add_zero, Nat.mod_eq_of_lt hq.rcur]
  have hinj0 : ∀ i, 0 < i → i < n → (q.deq_lock + i) % n ≠ q.deq_lock := by
    intro i hpos hi heq2
    have : i = 0 := addModCancel hi (by omega) (by rw [heq2, hd0])
    omega
  have hdeq : q.deq = .returns e
      { q with
        data := q.data.set q.deq_lock none
        deq_lock := (q.deq_lock + 1) % n
        size := q.size - 1 } := by
    simp [InnerQueue.deq, hs, he, hq.cap]
  have hidx : ∀ i : Nat, ((q.deq_lock + 1) % n + i) % n = (q.deq_lock + (1 + i)) % n := by
    intro i
    rw [Nat.mod_add_mod, Nat.add_assoc]
  have hocc1 : ∀ i, i < n →
      (((q.data.set q.deq_lock none).getD (((q.deq_lock + 1) % n + i) % n) none).isSome
        ↔ i < q.size - 1) := by
    intro i hi
    rw [hidx i]
    by_cases h1i : 1 + i < n
    · rw [getD_set_ne _ _ (Ne.symm (hinj0 (1 + i) (by omega) h1i))]
      have hocc := hq.occ (1 + i) h1i
      simp only [InnerQueue.slotAt] at hocc
      rw [hocc]
      omega
    · have h1e : 1 + i = n := by omega
      rw [h1e, Nat.add_mod_right, Nat.mod_eq_of_lt hq.rcur, getD_set_self _ _ hrlen]
      have := hq.size_le
      simp
      omega
  have hcnt1 : (q.data.set q.deq_lock none).countP Option.isSome = q.size - 1 := by
    have h1 := countP_set_acc Option.isSome q.data q.deq_lock none hrlen
    have h2 : q.data.getD q.deq_lock none = some e := he
    rw [h2, hq.cnt] at h1
    simp at h1
    omega
  have hinv : Inv n
      { q with
        data := q.data.set q.deq_lock none
        deq_lock := (q.deq_lock + 1) % n
        size := q.size - 1 } := by
    refine ⟨hq.cap, ?_, hq.wcur, ?_, (show q.size - 1 ≤ n by have := hq.size_le; omega),
      ?_, ?_, hcnt1⟩
    · rw [List.length_set]; exact hq.len
    · exact Nat.mod_lt _ (by omega)
    · rw [Nat.mod_add_mod]
      have harith : q.deq_lock + 1 + (q.size - 1) = q.deq_lock + q.size := by omega
      rw [harith]
      exact hq.wpos
    · intro i hi
      simpa [InnerQueue.slotAt] using hocc1 i hi
  have habs : q.abs = e ::
      (InnerQueue.abs
        { q with
          data := q.data.set q.deq_lock none
          deq_lock := (q.deq_lock + 1) % n
          size := q.size - 1 }) := by
    simp only [InnerQueue.abs, InnerQueue.slotAt, hq.cap, hm, Nat.add_sub_cancel]
    rw [List.range_succ_eq_map]
    have hzero : q.data.getD ((q.deq_lock + 0) % n) none = some e := by
      rw [hd0]; exact he
    simp only [List.filterMap_cons, hzero, List.filterMap_map]
    congr 1
    refine List.filterMap_congr (fun i hi => ?_)
    have hsle := hq.size_le
    have hilt : i < m := List.mem_range.mp hi
    simp only [Function.comp, Nat.succ_eq_add_one]
    rw [hidx i, getD_set_ne _ _ (Ne.symm (hinj0 (1 + i) (by omega) (by omega)))]
    have harith : q.deq_lock + (1 + i) = q.deq_lock + (i + 1) := by omega
    rw [harith]
  exact ⟨e, he, hdeq, hinv, habs⟩

/-- Every state reachable from a freshly constructed queue of positive
capacity satisfies the ring invariant. -/
theorem reachable_inv {T : Type} {n : Nat} {q : InnerQueue T}
    (hn : 1 ≤ n) (hr : Reachable T n q) : Inv n q := by
  induction hr with
  | init => exact inv_init hn
  | @step qp qc hr hstep ih =>
      cases hstep with
      | enq v =>
          by_cases hlt : qp.size < n
          · exact (enq_succ_spec hn ih v hlt).2.2.1
          · have hfull : qp.size = n := by have := ih.size_le; omega
            rw [enq_full_spec hn ih v hfull]
            exact ih
      | deq e q2 hdeq =>
          by_cases hs : qp.size = 0
          · simp [InnerQueue.deq, hs] at hdeq
          · obtain ⟨e2, _, hdeq2, hinv2, _⟩ := deq_spec hn ih hs
            rw [hdeq2] at hdeq
            injection hdeq with h1 h2
            subst h2
            exact hinv2

/-- Existential form of `deq_spec`, carrying the exact state on return. -/
theorem deq_spec2 {T : Type} {n : Nat} {q : InnerQueue T}
    (hn : 1 ≤ n) (hq : Inv n q) (hs : q.size ≠ 0) :
    ∃ e q2, q.slotAt q.deq_lock = some e ∧ q.deq = .returns e q2
      ∧ Inv n q2 ∧ q.abs = e :: q2.abs
      ∧ q2 = { q with
          data := q.data.set q.deq_lock none
          deq_lock := (q.deq_lock + 1) % n
          size := q.size - 1 } := by
  obtain ⟨e, he, hdeq, hinv, habs⟩ := deq_spec hn hq hs
  exact ⟨e, _, he, hdeq, hinv, habs, rfl⟩

/-- A successful enqueue can only happen below capacity. -/
theorem enq_ok_size {T : Type} {n : Nat} {q : InnerQueue T}
    (hn : 1 ≤ n) (hq : Inv n q) (v : T)
    (h : (q.enq v).result = .ok ()) : q.size < n := by
  by_contra hge
  have hfull : q.size = n := by have := hq.size_le; omega
  rw [enq_full_spec hn hq v hfull] at h
  simp at h

/-- An enqueue that returns an error leaves the state untouched and does
not signal. -/
theorem enq_error_unchanged {T : Type} (q : InnerQueue T) (v : T) (e : Error)
    (h : (q.enq v).result = .error e) :
    (q.enq v).state = q ∧ (q.enq v).mustWakeDequeuers = false := by
  by_cases hs : (q.slotAt q.enq_lock).isSome
  · have hrec : q.enq v
        = { state := q, result := .error .WouldBlock, mustWakeDequeuers := false } := by
      simp [InnerQueue.enq, hs]
    rw [hrec]
    exact ⟨rfl, rfl⟩
  · exfalso
    have hok : (q.enq v).result = .ok () := by simp [InnerQueue.enq, hs]
    rw [hok] at h
    exact Except.noConfusion h

/-- A freshly constructed queue abstracts to the empty FIFO list. -/
theorem abs_init {T : Type} (n : Nat) : (InnerQueue.withCapacity T n).abs = [] := by
  simp [InnerQueue.abs, InnerQueue.withCapacity]

/-- Simulation: a valid action sequence produces the same dequeued values on
the queue as on the reference FIFO list, preserves the invariant, and leaves
the queue abstracting to the final reference list. -/
theorem run_sim {T : Type} {n : Nat} (hn : 1 ≤ n) :
    ∀ (acts : List (Action T)) (q : InnerQueue T), Inv n q →
      queueValid q acts = true →
      (runQueue q acts).1 = (modelRun q.abs acts).1
      ∧ Inv n (runQueue q acts).2
      ∧ (runQueue q acts).2.abs = (modelRun q.abs acts).2 := by
  intro acts
  induction acts with
  | nil => intro q hq _; exact ⟨rfl, hq, rfl⟩
  | cons a rest ih =>
      intro q hq hv
      cases a with
      | enq v =>
          simp only [queueValid] at hv
          cases hres : (q.enq v).result with
          | error e => rw [hres] at hv; simp at hv
          | ok u =>
              cases u
              rw [hres] at hv
              have hvrest : queueValid (q.enq v).state rest = true := hv
              have hlt := enq_ok_size hn hq v hres
              obtain ⟨-, -, hinv2, habs2⟩ := enq_succ_spec hn hq v hlt
              have hrun : runQueue q (Action.enq v :: rest)
                  = runQueue (q.enq v).state rest := rfl
              have hmod : modelRun q.abs (Action.enq v :: rest)
                  = modelRun (q.abs ++ [v]) rest := rfl
              rw [hrun, hmod, ← habs2]
              exact ih (q.enq v).state hinv2 hvrest
      | deq =>
          simp only [queueValid, Bool.and_eq_true, decide_eq_true_eq] at hv
          obtain ⟨hs, hv3⟩ := hv
          obtain ⟨e, q2, _, hdeq, hinv2, habs2, _⟩ := deq_spec2 hn hq hs
          rw [hdeq] at hv3
          have hvrest : queueValid q2 rest = true := hv3
          have hrun : runQueue q (Action.deq :: rest)
              = (e :: (runQueue q2 rest).1, (runQueue q2 rest).2) := by
            simp only [runQueue, hdeq]
          have hmod : modelRun q.abs (Action.deq :: rest)
              = (e :: (modelRun q2.abs rest).1, (modelRun q2.abs rest).2) := by
            rw [habs2]
            simp only [modelRun]
          rw [hrun, hmod]
          obtain ⟨ih1, ih2, ih3⟩ := ih q2 hinv2 hvrest
          exact ⟨by rw [ih1], ih2, ih3⟩

/-- Enqueuing a list of values that fits entirely into the remaining space
succeeds completely and raises the occupancy by exactly the list length. -/
theorem enqAll_spec {T : Type} {n : Nat} (hn : 1 ≤ n) :
    ∀ (vs : List T) (q : InnerQueue T), Inv n q → q.size + vs.length ≤ n →
      (enqAll q vs).2 = true ∧ Inv n (enqAll q vs).1
      ∧ (enqAll q vs).1.size = q.size + vs.length := by
  intro vs
  induction vs with
  | nil => intro q hq _; exact ⟨rfl, hq, by simp [enqAll]⟩
  | cons v vs ih =>
      intro q hq hle
      simp only [List.length_cons] at hle
      have hlt : q.size < n := by omega
      obtain ⟨-, henq, hinv2, -⟩ := enq_succ_spec hn hq v hlt
      have hsz : (q.enq v).state.size = q.size + 1 := by rw [henq]
      have hok : (q.enq v).result = .ok () := by rw [henq]
      obtain ⟨h1, h2, h3⟩ := ih (q.enq v).state hinv2 (by rw [hsz]; omega)
      have hunf : enqAll q (v :: vs)
          = ((enqAll (q.enq v).state vs).1, (enqAll (q.enq v).state vs).2) := by
        simp only [enqAll, hok]
      rw [hunf]
      refine ⟨h1, h2, ?_⟩
      rw [h3, hsz]
      simp only [List.length_cons]
      omega

/-- C1: for every sequence of enqueue and dequeue calls issued by a single
thread on a queue of any positive capacity — a dequeue issued only when the
queue is non-empty and an enqueue only when it succeeds — the sequence of
dequeued values observed from the queue equals that of the reference FIFO
list in which enqueue is push-back and dequeue is pop-front, and the final
queue content abstracts to the final reference list. -/
theorem C1_sequential_model_equivalence {T : Type} (n : Nat) (hn : 1 ≤ n)
    (acts : List (Action T))
    (hv : queueValid (InnerQueue.withCapacity T n) acts = true) :
    (runQueue (InnerQueue.withCapacity T n) acts).1 = (modelRun [] acts).1
    ∧ (runQueue (InnerQueue.withCapacity T n) acts).2.abs = (modelRun [] acts).2 := by
  obtain ⟨h1, _, h3⟩ := run_sim hn acts (InnerQueue.withCapacity T n) (inv_init hn) hv
  rw [abs_init n] at h1 h3
  exact ⟨h1, h3⟩

/-- Witness for C1: a concrete valid action sequence on a capacity-2 queue. -/
theorem C1_witness :
    (runQueue (InnerQueue.withCapacity Nat 2)
        [.enq 1, .enq 2, .deq, .enq 3, .deq, .deq]).1
      = (modelRun [] [Action.enq 1, .enq 2, .deq, .enq 3, .deq, .deq]).1 :=
  (C1_sequential_model_equivalence 2 (by decide)
    [.enq 1, .enq 2, .deq, .enq 3, .deq, .deq] (by decide)).1

/-- C2: in every reachable state of a queue of capacity n ≥ 1 the occupancy
counter lies in [0, n] and equals the number of occupied slots of the ring
storage; a successful enqueue increments it by exactly 1 and a completed
dequeue decrements it by exactly 1. -/
theorem C2_occupancy_counter {T : Type} {n : Nat} {q : InnerQueue T}
    (hn : 1 ≤ n) (hr : Reachable T n q) :
    q.size ≤ n
    ∧ q.data.countP Option.isSome = q.size
    ∧ (∀ v : T, (q.enq v).result = .ok () → (q.enq v).state.size = q.size + 1)
    ∧ (∀ (e : T) (q' : InnerQueue T), q.deq = .returns e q' → q.size = q'.size + 1) := by
  have hq := reachable_inv hn hr
  refine ⟨hq.size_le, hq.cnt, ?_, ?_⟩
  · intro v hok
    have hlt := enq_ok_size hn hq v hok
    obtain ⟨-, henq, -, -⟩ := enq_succ_spec hn hq v hlt
    rw [henq]
  · intro e q' hdeq
    have hs : q.size ≠ 0 := by
      intro h0
      simp [InnerQueue.deq, h0] at hdeq
    obtain ⟨e2, q2, -, hdeq2, -, -, hrec⟩ := deq_spec2 hn hq hs
    rw [hdeq2] at hdeq
    injection hdeq with h1 h2
    subst h2
    rw [hrec]
    show q.size = q.size - 1 + 1
    omega

/-- Witness for C2 at the initial state of a capacity-1 queue. -/
theorem C2_witness : (InnerQueue.withCapacity Nat 1).size ≤ 1 :=
  (C2_occupancy_counter (by decide) Reachable.init).1

/-- C3: from a freshly constructed queue of capacity c ≥ 1, c enqueues all
succeed and the next enqueue returns the Full error as a value (the `enq`
model always returns a result, it has no waiting branch); in general an
enqueue never succeeds in a reachable state whose occupancy equals the
capacity. -/
theorem C3_full_rejection {T : Type} (c : Nat) (hc : 1 ≤ c)
    (vs : List T) (hlen : vs.length = c) (w : T) :
    (enqAll (InnerQueue.withCapacity T c) vs).2 = true
    ∧ ((enqAll (InnerQueue.withCapacity T c) vs).1.enq w).result = .error .WouldBlock
    ∧ (∀ (q : InnerQueue T) (v : T), Reachable T c q → q.size = c →
        (q.enq v).result = .error .WouldBlock) := by
  obtain ⟨h1, h2, h3⟩ := enqAll_spec hc vs (InnerQueue.withCapacity T c)
      (inv_init hc) (by simp [InnerQueue.withCapacity, hlen])
  refine ⟨h1, ?_, ?_⟩
  · have hfull : (enqAll (InnerQueue.withCapacity T c) vs).1.size = c := by
      rw [h3, hlen]
      simp [InnerQueue.withCapacity]
    rw [enq_full_spec hc h2 w hfull]
  · intro q v hr hsz
    rw [enq_full_spec hc (reachable_inv hc hr) v hsz]

/-- Witness for C3: one enqueue fills a capacity-1 queue; the next fails. -/
theorem C3_witness : (enqAll (InnerQueue.withCapacity Nat 1) [3]).2 = true :=
  (C3_full_rejection 1 (by decide) [3] rfl 7).1

/-- C4: on a freshly constructed queue of capacity 2, the call sequence
enqueue(1), enqueue(2), enqueue(3), dequeue, enqueue(3), dequeue, dequeue
yields Ok, Ok, Err(Full), 1, Ok, 2, 3 in that order; the write cursor wraps
to 0 after the second enqueue and the read cursor wraps to 0 after the
second dequeue. -/
theorem C4_concrete_scenario :
    trace (InnerQueue.withCapacity Nat 2)
        [.enq 1, .enq 2, .enq 3, .deq, .enq 3, .deq, .deq]
      = [.enqOk, .enqOk, .enqFull, .deqVal 1, .enqOk, .deqVal 2, .deqVal 3]
    ∧ (runQueue (InnerQueue.withCapacity Nat 2) [.enq 1, .enq 2]).2.enq_lock = 0
    ∧ (runQueue (InnerQueue.withCapacity Nat 2)
        [.enq 1, .enq 2, .enq 3, .deq, .enq 3, .deq]).2.deq_lock = 0 := by
  decide

/-- C5: whenever enqueue returns the Full error, the queue state is
completely unchanged — every slot keeps its content, both cursors and the
occupancy counter keep their values — and no wake signal is sent. -/
theorem C5_full_leaves_state_unchanged {T : Type} (q : InnerQueue T) (v : T)
    (e : Error) (h : (q.enq v).result = .error e) :
    (q.enq v).state = q
    ∧ (∀ i : Nat, (q.enq v).state.slotAt i = q.slotAt i)
    ∧ (q.enq v).state.enq_lock = q.enq_lock
    ∧ (q.enq v).state.deq_lock = q.deq_lock
    ∧ (q.enq v).state.size = q.size
    ∧ (q.enq v).mustWakeDequeuers = false := by
  obtain ⟨h1, h2⟩ := enq_error_unchanged q v e h
  rw [h1]
  exact ⟨rfl, fun _ => rfl, rfl, rfl, rfl, h2⟩

/-- Witness for C5: the failing enqueue on a full capacity-1 queue leaves
the state unchanged. -/
theorem C5_witness :
    ((((InnerQueue.withCapacity Nat 1).enq 5).state.enq 7).state
      = ((InnerQueue.withCapacity Nat 1).enq 5).state) :=
  (C5_full_leaves_state_unchanged ((InnerQueue.withCapacity Nat 1).enq 5).state 7
    .WouldBlock (by decide)).1

/-- C6: in every reachable state of a queue of capacity n ≥ 1 both cursors
lie in [0, n); the write cursor advances by one modulo n exactly on a
successful enqueue, which takes the slot under it from Empty to Occupied and
leaves the read cursor alone; the read cursor advances by one modulo n
exactly on a completed dequeue, which takes the slot under it from Occupied
to Empty and leaves the write cursor alone; a failed enqueue changes the
whole state not at all. -/
theorem C6_cursor_invariants {T : Type} {n : Nat} {q : InnerQueue T}
    (hn : 1 ≤ n) (hr : Reachable T n q) :
    q.enq_lock < n ∧ q.deq_lock < n
    ∧ (∀ v : T, (q.enq v).result = .ok () →
        (q.enq v).state.enq_lock = (q.enq_lock + 1) % n
        ∧ q.slotAt q.enq_lock = none
        ∧ (q.enq v).state.slotAt q.enq_lock = some v
        ∧ (q.enq v).state.deq_lock = q.deq_lock)
    ∧ (∀ (v : T) (e : Error), (q.enq v).result = .error e → (q.enq v).state = q)
    ∧ (∀ (e : T) (q' : InnerQueue T), q.deq = .returns e q' →
        q'.deq_lock = (q.deq_lock + 1) % n
        ∧ q.slotAt q.deq_lock = some e
        ∧ q'.slotAt q.deq_lock = none
        ∧ q'.enq_lock = q.enq_lock) := by
  have hq := reachable_inv hn hr
  have hwlen : q.enq_lock < q.data.length := by rw [hq.len]; exact hq.wcur
  have hrlen : q.deq_lock < q.data.length := by rw [hq.len]; exact hq.rcur
  refine ⟨hq.wcur, hq.rcur, ?_, ?_, ?_⟩
  · intro v hok
    have hlt := enq_ok_size hn hq v hok
    obtain ⟨hnone, henq, -, -⟩ := enq_succ_spec hn hq v hlt
    rw [henq]
    refine ⟨rfl, hnone, ?_, rfl⟩
    show (q.data.set q.enq_lock (some v)).getD q.enq_lock none = some v
    exact getD_set_self _ _ hwlen
  · intro v e herr
    exact (enq_error_unchanged q v e herr).1
  · intro e q' hdeq
    have hs : q.size ≠ 0 := by
      intro h0
      simp [InnerQueue.deq, h0] at hdeq
    obtain ⟨e2, q2, he2, hdeq2, -, -, hrec⟩ := deq_spec2 hn hq hs
    rw [hdeq2] at hdeq
    injection hdeq with h1 h2
    subst h1 h2
    rw [hrec]
    refine ⟨rfl, he2, ?_, rfl⟩
    show (q.data.set q.deq_lock none).getD q.deq_lock none = none
    exact getD_set_self _ _ hrlen

/-- Witness for C6 at the initial state of a capacity-1 queue. -/
theorem C6_witness : (InnerQueue.withCapacity Nat 1).enq_lock < 1 :=
  (C6_cursor_invariants (by decide) Reachable.init).1

/-- C7: in every reachable state with non-zero occupancy the slot at the
read cursor is occupied, `deq` does not reach its empty-slot
(`unreachable!()`) branch, and it returns exactly the value stored in that
slot after resetting the slot to Empty. -/
theorem C7_deq_slot_occupied {T : Type} {n : Nat} {q : InnerQueue T}
    (hn : 1 ≤ n) (hr : Reachable T n q) (hs : q.size ≠ 0) :
    (q.slotAt q.deq_lock).isSome
    ∧ q.deq ≠ .panics
    ∧ ∃ (e : T) (q' : InnerQueue T), q.deq = .returns e q'
        ∧ q.slotAt q.deq_lock = some e
        ∧ q'.slotAt q.deq_lock = none := by
  have hq := reachable_inv hn hr
  have hrlen : q.deq_lock < q.data.length := by rw [hq.len]; exact hq.rcur
  obtain ⟨e, q2, he, hdeq, -, -, hrec⟩ := deq_spec2 hn hq hs
  refine ⟨by rw [he]; rfl, by rw [hdeq]; exact fun hcontra => DeqResult.noConfusion hcontra,
    e, q2, hdeq, he, ?_⟩
  rw [hrec]
  show (q.data.set q.deq_lock none).getD q.deq_lock none = none
  exact getD_set_self _ _ hrlen

/-- Witness for C7 after one enqueue on a capacity-1 queue. -/
theorem C7_witness :
    ((((InnerQueue.withCapacity Nat 1).enq 5).state).slotAt
      (((InnerQueue.withCapacity Nat 1).enq 5).state).deq_lock).isSome :=
  (C7_deq_slot_occupied (by decide)
    (Reachable.step Reachable.init (Step.enq (InnerQueue.withCapacity Nat 1) 5))
    (by decide)).1

/-- C8: a successful enqueue sets the wake-all flag (and so broadcasts the
wake condition to all blocked consumers) exactly when the occupancy counter
before the increment was 0; an enqueue returning Full never signals. -/
theorem C8_wake_on_empty_transition {T : Type} (q : InnerQueue T) (v : T) :
    (q.enq v).mustWakeDequeuers = true
      ↔ ((q.enq v).result = .ok () ∧ q.size = 0) := by
  by_cases hs : (q.slotAt q.enq_lock).isSome <;> simp [InnerQueue.enq, hs]

/-- Witness for C8: the first enqueue on an empty capacity-1 queue signals. -/
theorem C8_witness :
    ((InnerQueue.withCapacity Nat 1).enq 5).mustWakeDequeuers = true
      ↔ (((InnerQueue.withCapacity Nat 1).enq 5).result = .ok ()
          ∧ (InnerQueue.withCapacity Nat 1).size = 0) :=
  C8_wake_on_empty_transition (InnerQueue.withCapacity Nat 1) 5

/-- C10: a successful enqueue modifies exactly the slot at the pre-call
write cursor (from Empty to Occupied with the enqueued value), the write
cursor and the occupancy counter, leaving the read cursor, capacity and all
other slots unchanged; a completed dequeue modifies exactly the slot at the
pre-call read cursor (from Occupied to Empty), the read cursor and the
occupancy counter, leaving the write cursor, capacity and all other slots
unchanged. -/
theorem C10_frame_effects {T : Type} {n : Nat} {q : InnerQueue T}
    (hn : 1 ≤ n) (hr : Reachable T n q) :
    (∀ v : T, (q.enq v).result = .ok () →
        (q.enq v).state.data = q.data.set q.enq_lock (some v)
        ∧ (∀ j : Nat, j ≠ q.enq_lock → (q.enq v).state.slotAt j = q.slotAt j)
        ∧ q.slotAt q.enq_lock = none
        ∧ (q.enq v).state.slotAt q.enq_lock = some v
        ∧ (q.enq v).state.deq_lock = q.deq_lock
        ∧ (q.enq v).state.capacity = q.capacity
        ∧ (q.enq v).state.enq_lock = (q.enq_lock + 1) % n
        ∧ (q.enq v).state.size = q.size + 1)
    ∧ (∀ (e : T) (q' : InnerQueue T), q.deq = .returns e q' →
        q'.data = q.data.set q.deq_lock none
        ∧ (∀ j : Nat, j ≠ q.deq_lock → q'.slotAt j = q.slotAt j)
        ∧ q.slotAt q.deq_lock = some e
        ∧ q'.slotAt q.deq_lock = none
        ∧ q'.enq_lock = q.enq_lock
        ∧ q'.capacity = q.capacity
        ∧ q'.deq_lock = (q.deq_lock + 1) % n
        ∧ q'.size = q.size - 1) := by
  have hq := reachable_inv hn hr
  have hwlen : q.enq_lock < q.data.length := by rw [hq.len]; exact hq.wcur
  have hrlen : q.deq_lock < q.data.length := by rw [hq.len]; exact hq.rcur
  constructor
  · intro v hok
    have hlt := enq_ok_size hn hq v hok
    obtain ⟨hnone, henq, -, -⟩ := enq_succ_spec hn hq v hlt
    rw [henq]
    refine ⟨rfl, ?_, hnone, ?_, rfl, rfl, rfl, rfl⟩
    · intro j hj
      show (q.data.set q.enq_lock (some v)).getD j none = q.data.getD j none
      exact getD_set_ne _ _ (Ne.symm hj)
    · show (q.data.set q.enq_lock (some v)).getD q.enq_lock none = some v
      exact getD_set_self _ _ hwlen
  · intro e q' hdeq
    have hs : q.size ≠ 0 := by
      intro h0
      simp [InnerQueue.deq, h0] at hdeq
    obtain ⟨e2, q2, he2, hdeq2, -, -, hrec⟩ := deq_spec2 hn hq hs
    rw [hdeq2] at hdeq
    injection hdeq with h1 h2
    subst h1 h2
    rw [hrec]
    refine ⟨rfl, ?_, he2, ?_, rfl, rfl, rfl, rfl⟩
    · intro j hj
      show (q.data.set q.deq_lock none).getD j none = q.data.getD j none
      exact getD_set_ne _ _ (Ne.symm hj)
    · show (q.data.set q.deq_lock none).getD q.deq_lock none = none
      exact getD_set_self _ _ hrlen

/-- Witness for C10: a successful enqueue on an empty capacity-1 queue
writes exactly the slot at the write cursor. -/
theorem C10_witness :
    ((InnerQueue.withCapacity Nat 1).enq 5).state.data
      = (InnerQueue.withCapacity Nat 1).data.set
          (InnerQueue.withCapacity Nat 1).enq_lock (some 5) :=
  ((C10_frame_effects (by decide) Reachable.init).1 5 (by decide)).1

/-- C9: cloning a handle copies only the instance pointer, so both handles
reference the same underlying queue; any two handles with the same pointer
perform identical heap operations, so an enqueue through one handle is
observed by a dequeue through any other handle of the instance; dropping a
handle deallocates nothing, so the instance stays alive as long as any
handle (and beyond). -/
theorem C9_shared_handle {T : Type} {n : Nat} (hn : 1 ≤ n)
    (hp : Heap T) (h : Queue) (q : InnerQueue T) (v : T)
    (hg : hp.instances[h.inner]? = some q)
    (hr : Reachable T n q) (hs : q.size = 0) :
    Queue.clone h = h
    ∧ (∀ (hp2 : Heap T) (h2 h3 : Queue) (w : T), h2.inner = h3.inner →
        Queue.enq hp2 h2 w = Queue.enq hp2 h3 w ∧ Queue.deq hp2 h2 = Queue.deq hp2 h3)
    ∧ (∀ (hp2 : Heap T) (h2 : Queue), Queue.dropHandle hp2 h2 = hp2)
    ∧ (∃ q' : InnerQueue T,
        (Queue.deq (Queue.enq hp (Queue.clone h) v).1 h).2 = .returns v q') := by
  refine ⟨rfl, ?_, fun _ _ => rfl, ?_⟩
  · intro hp2 h2 h3 w heq
    constructor
    · unfold Queue.enq
      rw [heq]
    · unfold Queue.deq
      rw [heq]
  · have hq := reachable_inv hn hr
    have hlt : q.size < n := by omega
    obtain ⟨-, -, hinv2, habs2⟩ := enq_succ_spec hn hq v hlt
    have henqh : Queue.enq hp (Queue.clone h) v
        = ({ instances := hp.instances.set h.inner (q.enq v).state }, (q.enq v).result) := by
      simp only [Queue.enq, Queue.clone, hg]
    have hlen : h.inner < hp.instances.length := by
      rcases List.getElem?_eq_some.mp hg with ⟨hh, -⟩
      exact hh
    have hget2 : (hp.instances.set h.inner (q.enq v).state)[h.inner]?
        = some (q.enq v).state := by
      rw [List.getElem?_set_self]
      exact hlen
    have hs2 : (q.enq v).state.size ≠ 0 := by
      have := enq_ok_size hn hq v
      obtain ⟨-, henq, -, -⟩ := enq_succ_spec hn hq v hlt
      rw [henq]
      simp
    obtain ⟨e, q2, -, hdeq, -, habs3, -⟩ := deq_spec2 hn hinv2 hs2
    have habs0 : q.abs = [] := by
      simp [InnerQueue.abs, hs]
    have he : e = v := by
      rw [habs2, habs0] at habs3
      simp at habs3
      exact habs3.1.symm
    refine ⟨q2, ?_⟩
    rw [henqh]
    show (Queue.deq { instances := hp.instances.set h.inner (q.enq v).state } h).2 = _
    simp only [Queue.deq, hget2, hdeq]
    rw [he]

/-- Witness for C9 on a singleton heap holding a capacity-1 queue. -/
theorem C9_witness :
    ∃ q' : InnerQueue Nat,
      (Queue.deq
        (Queue.enq { instances := [InnerQueue.withCapacity Nat 1] }
          (Queue.clone { inner := 0 }) 42).1
        { inner := 0 }).2 = .returns 42 q' :=
  (C9_shared_handle (by decide) { instances := [InnerQueue.withCapacity Nat 1] }
    { inner := 0 } (InnerQueue.withCapacity Nat 1) 42 (by decide)
    Reachable.init rfl).2.2.2

end Hopper
